import Mathlib

/-!
Verification of the text-repair / extraction layer and the iframe messaging
bridge of the smart-draw repository.

The JavaScript sources embedded here:
  * `lib/fixUnclosed.js` (shipped alongside `components/DrawioCanvas.jsx`):
    `isLikelyJSON`, `stripTrailingCommas`, `fixJSONStructure`, `fixJSON`,
    `DEFAULT_VOID_TAGS`, `fixXMLorHTML`, `fixUnclosed`;
  * `app/page.js`: `postProcessDrawioCode`;
  * `components/DrawioCanvas.jsx`: `handleMessage`, `sendLoadMessage`,
    `exportDiagram`, `mergeDiagram`.

Strings are modelled as `List Char` at the core, with `String` wrappers.
JavaScript exceptions of `JSON.parse` are modelled by the decidable
acceptance checker `jsonValid`; every function is total, mirroring the
try/catch structure of the source.
-/

namespace SmartDraw

/-- Whitespace class of JavaScript: the set matched by the regex class `\s`
and stripped by `String.prototype.trim` (ASCII whitespace, NBSP, Ogham
space, the Unicode space separators, line/paragraph separators, narrow
no-break and ideographic spaces, and the BOM). -/
def isJsWs (c : Char) : Bool :=
  c.toNat = 0x20 || c.toNat = 0x09 || c.toNat = 0x0A || c.toNat = 0x0B ||
  c.toNat = 0x0C || c.toNat = 0x0D ||
  c.toNat = 0xA0 || c.toNat = 0x1680 ||
  (0x2000 ≤ c.toNat && c.toNat ≤ 0x200A) ||
  c.toNat = 0x2028 || c.toNat = 0x2029 || c.toNat = 0x202F || c.toNat = 0x205F ||
  c.toNat = 0x3000 || c.toNat = 0xFEFF

/-- Whitespace accepted inside a JSON document by `JSON.parse`
(space, tab, line feed, carriage return only). -/
def isJsonWs (c : Char) : Bool :=
  c = ' ' || c = '\t' || c = '\n' || c = '\r'

/-- Model of `String.prototype.trim`: whitespace removed from both ends. -/
def jsTrimL (l : List Char) : List Char :=
  List.rdropWhile isJsWs (List.dropWhile isJsWs l)

/-- Model of `String.prototype.trimStart`. -/
def jsTrimStartL (l : List Char) : List Char :=
  List.dropWhile isJsWs l

/-- Characters removed by the two cleanup regexes shared by
`fixJSONStructure`, `fixXMLorHTML` and `postProcessDrawioCode`: the BOM
U+FEFF, the zero-width characters U+200B through U+200D, and the word
joiner U+2060. -/
def isZeroWidth (c : Char) : Bool :=
  c.toNat = 0xFEFF || (0x200B ≤ c.toNat && c.toNat ≤ 0x200D) || c.toNat = 0x2060

/-- Application of the two cleanup regexes: every BOM and zero-width
character is deleted. -/
def filterZW (l : List Char) : List Char :=
  l.filter (fun c => !isZeroWidth c)

/-- Tail check for the regex `\s*[}\]]`: optional whitespace followed by a
closing brace or bracket. -/
def wsThenCloser : List Char → Bool
  | [] => false
  | c :: r => if c = '}' || c = ']' then true else if isJsWs c then wsThenCloser r else false

/-- Model of `stripTrailingCommas` (`text.replace(/,(\s*[}\]])/g, '$1')`):
a single left-to-right pass deleting every comma that is followed, after
optional whitespace, by `}` or `]`. -/
def stripTC : List Char → List Char
  | [] => []
  | c :: r => if c = ',' && wsThenCloser r then stripTC r else c :: stripTC r

/-- Model of `text.replace(/,\s*$/g, '')`: when the text ends in a comma
followed only by whitespace, that comma and the whitespace are removed. -/
def stripEndComma (l : List Char) : List Char :=
  match List.dropWhile isJsWs l.reverse with
  | ',' :: r => r.reverse
  | _ => l

/-- Scanner state of the bracket/string scan inside `fixJSONStructure`:
the stack of unclosed opening brackets (head = most recently opened),
whether the scan sits inside a string literal, and whether the previous
character was an unconsumed backslash escape. -/
structure ScanSt where
  stack : List Char
  inString : Bool
  escaped : Bool
deriving DecidableEq, Repr

/-- Initial scanner state. -/
def ScanSt.init : ScanSt := ⟨[], false, false⟩

/-- One step of the character scan of `fixJSONStructure`: inside a string,
a backslash escapes the next character and a quote closes the string;
outside, quotes open strings, `{`/`[` push, and `}`/`]` pop only when they
match the top of the stack. -/
def scanStep (st : ScanSt) (c : Char) : ScanSt :=
  if st.inString then
    if st.escaped then ⟨st.stack, true, false⟩
    else if c = '\\' then ⟨st.stack, true, true⟩
    else if c = '"' then ⟨st.stack, false, false⟩
    else st
  else
    if c = '"' then ⟨st.stack, true, false⟩
    else if c = '{' || c = '[' then ⟨c :: st.stack, false, st.escaped⟩
    else if c = '}' then
      match st.stack with
      | '{' :: rest => ⟨rest, false, st.escaped⟩
      | _ => st
    else if c = ']' then
      match st.stack with
      | '[' :: rest => ⟨rest, false, st.escaped⟩
      | _ => st
    else st

/-- Scan of a whole text from a given state. -/
def scanFrom (st : ScanSt) (l : List Char) : ScanSt :=
  l.foldl scanStep st

/-- Scan of a whole text from the initial state. -/
def jsonScan (l : List Char) : ScanSt :=
  scanFrom ScanSt.init l

/-- Closing bracket matching an opening one (`'{'` closes with `'}'`,
anything else with `']'`), as in the final loop of `fixJSONStructure`. -/
def closeBr (c : Char) : Char :=
  if c = '{' then '}' else ']'

/-- Closers appended by `fixJSONStructure`: the unclosed brackets, most
recent first. -/
def closersOf (stack : List Char) : List Char :=
  stack.map closeBr

/-- Model of `fixJSONStructure`: cleanup, one comma strip, the scan, a
closing quote when a string is unterminated, end-comma and comma strips,
then the missing closing brackets. -/
def fixJSONStructureL (input : List Char) : List Char :=
  let text := stripTC (filterZW input)
  let st := jsonScan text
  let text := if st.inString then text ++ ['"'] else text
  let text := stripEndComma text
  let text := stripTC text
  text ++ closersOf st.stack

/-! Acceptance checker for `JSON.parse`: a recursive-descent recognizer of
the JSON grammar (RFC 8259, as implemented by JavaScript `JSON.parse`),
with explicit fuel so that recursion is structural and kernel-reducible.
Each recognizer returns the unread remainder on success. -/

/-- Hexadecimal digit test for `\uXXXX` escapes. -/
def isHexDig (c : Char) : Bool :=
  c.isDigit || ('a' ≤ c && c ≤ 'f') || ('A' ≤ c && c ≤ 'F')

/-- Remainder of a JSON string literal after its opening quote: ordinary
characters above U+001F, the eight single-character escapes, and `\uXXXX`
hex escapes, until an unescaped closing quote. -/
def parseStrRest : List Char → Option (List Char)
  | [] => none
  | '"' :: r => some r
  | '\\' :: r =>
    match r with
    | [] => none
    | e :: r' =>
      if e = '"' || e = '\\' || e = '/' || e = 'b' || e = 'f' ||
         e = 'n' || e = 'r' || e = 't' then parseStrRest r'
      else if e = 'u' then
        match r' with
        | h1 :: h2 :: h3 :: h4 :: r'' =>
          if isHexDig h1 && isHexDig h2 && isHexDig h3 && isHexDig h4 then
            parseStrRest r''
          else none
        | _ => none
      else none
  | c :: r => if 0x20 ≤ c.toNat then parseStrRest r else none

/-- Digit-run recognizer: at least one decimal digit, returning the rest. -/
def parseDigits : List Char → Option (List Char)
  | c :: r => if c.isDigit then some (r.dropWhile Char.isDigit) else none
  | [] => none

/-- Optional fraction part `.digits`. -/
def parseFrac : List Char → Option (List Char)
  | '.' :: r => parseDigits r
  | l => some l

/-- Optional exponent part `[eE][+-]?digits`. -/
def parseExp (l : List Char) : Option (List Char) :=
  match l with
  | c :: r =>
    if c = 'e' || c = 'E' then
      match r with
      | s :: r' => if s = '+' || s = '-' then parseDigits r' else parseDigits r
      | [] => none
    else some l
  | [] => some l

/-- JSON number: optional minus, `0` or a nonzero-led digit run, optional
fraction and exponent. -/
def parseNum (l : List Char) : Option (List Char) :=
  let afterSign := match l with
    | '-' :: r => r
    | _ => l
  let intPart : Option (List Char) :=
    match afterSign with
    | '0' :: r => some r
    | c :: r => if c.isDigit then some (r.dropWhile Char.isDigit) else none
    | [] => none
  match intPart with
  | none => none
  | some r =>
    match parseFrac r with
    | none => none
    | some r' => parseExp r'

/-- Syntactic role selector for the fuelled JSON recognizer: a whole value,
the member loop of an object body, or the element loop of an array body. -/
inductive JTask
  | val
  | members
  | elems
deriving DecidableEq

/-- Fuelled JSON recognizer covering values, object member loops and array
element loops; the fuel strictly decreases on every recursive call, making
the recursion structural on `Nat`. -/
def jrun : Nat → JTask → List Char → Option (List Char)
  | 0, _, _ => none
  | f + 1, .val, l =>
    match l with
    | 'n' :: 'u' :: 'l' :: 'l' :: r => some r
    | 't' :: 'r' :: 'u' :: 'e' :: r => some r
    | 'f' :: 'a' :: 'l' :: 's' :: 'e' :: r => some r
    | '"' :: r => parseStrRest r
    | '{' :: r =>
      (match List.dropWhile isJsonWs r with
       | '}' :: r' => some r'
       | l' => jrun f .members l')
    | '[' :: r =>
      (match List.dropWhile isJsonWs r with
       | ']' :: r' => some r'
       | l' => jrun f .elems l')
    | _ => parseNum l
  | f + 1, .members, l =>
    match l with
    | '"' :: r =>
      (match parseStrRest r with
       | none => none
       | some r' =>
         match List.dropWhile isJsonWs r' with
         | ':' :: r'' =>
           (match jrun f .val (List.dropWhile isJsonWs r'') with
            | none => none
            | some r3 =>
              match List.dropWhile isJsonWs r3 with
              | ',' :: r4 => jrun f .members (List.dropWhile isJsonWs r4)
              | '}' :: r4 => some r4
              | _ => none)
         | _ => none)
    | _ => none
  | f + 1, .elems, l =>
    match jrun f .val l with
    | none => none
    | some r =>
      match List.dropWhile isJsonWs r with
      | ',' :: r' => jrun f .elems (List.dropWhile isJsonWs r')
      | ']' :: r' => some r'
      | _ => none

/-- Acceptance by `JSON.parse`: the whole text, up to surrounding JSON
whitespace, is one JSON value.  The fuel is generous: every recursive
descent step consumes at least one character. -/
def jsonValidL (l : List Char) : Bool :=
  match jrun (l.length + 8) .val (List.dropWhile isJsonWs l) with
  | some r => List.dropWhile isJsonWs r = []
  | none => false

/-- String-level wrapper of `jsonValidL`. -/
def jsonValid (s : String) : Bool :=
  jsonValidL s.data

/-- String-level wrapper of `jsTrimL`. -/
def jsTrim (s : String) : String :=
  ⟨jsTrimL s.data⟩

/-- String-level wrapper of `fixJSONStructureL`, the exported shape of
`fixJSONStructure`. -/
def fixJSONStructure (s : String) : String :=
  ⟨fixJSONStructureL s.data⟩

/-- String-level wrapper of `stripTC`. -/
def stripTrailingCommas (s : String) : String :=
  ⟨stripTC s.data⟩

/-- Model of `fixJSON`: trim; return the text unchanged when `JSON.parse`
accepts it; otherwise run the structural repair and return it when it now
parses; otherwise strip trailing commas once more and return that
best-effort text. -/
def fixJSON (input : String) : String :=
  let raw := jsTrim input
  if raw = "" then raw
  else if jsonValid raw then raw
  else
    let fixed := fixJSONStructure raw
    if jsonValid fixed then fixed
    else stripTrailingCommas fixed

/-- Concrete test document `{"a":`, a prefix of `{"a":1}`, spelled as a
character list. -/
def jsonPrefixCex : String :=
  ⟨['{', '"', 'a', '"', ':']⟩

/-- Concrete well-formed document `{"a":1}`. -/
def jsonFullDoc : String :=
  ⟨['{', '"', 'a', '"', ':', '1', '}']⟩

/-- Concrete document `{"a":"b` truncated inside a string value. -/
def jsonStrTrunc : String :=
  ⟨['{', '"', 'a', '"', ':', '"', 'b']⟩

/-- Concrete valid document `{"a":1}` with surrounding whitespace. -/
def jsonValidPadded : String :=
  ⟨[' ', ' ', '{', '"', 'a', '"', ':', '1', '}', ' ']⟩

/-! Scan-preservation lemmas for the repair passes. -/

theorem scanFrom_append (st : ScanSt) (a b : List Char) :
    scanFrom st (a ++ b) = scanFrom (scanFrom st a) b := by
  simp [scanFrom, List.foldl_append]

theorem isJsWs_ne_special {c : Char} (h : isJsWs c = true) :
    c ≠ '"' ∧ c ≠ '\\' ∧ c ≠ '{' ∧ c ≠ '[' ∧ c ≠ '}' ∧ c ≠ ']' := by
  refine ⟨?_, ?_, ?_, ?_, ?_, ?_⟩ <;> rintro rfl <;> exact absurd h (by decide)

theorem scanStep_outside_plain {st : ScanSt} {c : Char} (hin : st.inString = false)
    (h1 : c ≠ '"') (h2 : c ≠ '{') (h3 : c ≠ '[') (h4 : c ≠ '}') (h5 : c ≠ ']') :
    scanStep st c = st := by
  simp [scanStep, hin, h1, h2, h3, h4, h5]

theorem scanStep_inside_plain {S : List Char} {c : Char} (h1 : c ≠ '"') (h2 : c ≠ '\\') :
    scanStep ⟨S, true, false⟩ c = ⟨S, true, false⟩ := by
  simp [scanStep, h1, h2]

theorem scanStep_escape_consume {S : List Char} (c : Char) :
    scanStep ⟨S, true, true⟩ c = ⟨S, true, false⟩ := by
  simp [scanStep]

theorem wsThenCloser_head {l : List Char} (h : wsThenCloser l = true) :
    ∃ d r', l = d :: r' ∧ d ≠ '"' ∧ d ≠ '\\' := by
  match l with
  | [] => exact absurd h (by decide)
  | d :: r' =>
    refine ⟨d, r', rfl, ?_⟩
    simp only [wsThenCloser] at h
    split at h
    · rename_i hcc
      have : d = '}' ∨ d = ']' := by simpa using hcc
      rcases this with rfl | rfl <;> exact ⟨by decide, by decide⟩
    · split at h
      · rename_i hw
        have := isJsWs_ne_special hw
        exact ⟨this.1, this.2.1⟩
      · exact absurd h (by decide)

theorem scanFrom_stripTC (l : List Char) : ∀ st, scanFrom st (stripTC l) = scanFrom st l := by
  induction l with
  | nil => intro st; rfl
  | cons c r ih =>
    intro st
    by_cases hc : (c = ',' && wsThenCloser r) = true
    · have hc' : c = ',' ∧ wsThenCloser r = true := by simpa using hc
      obtain ⟨hcomma, hws⟩ := hc'
      have hstep : scanFrom st r = scanFrom (scanStep st c) r := by
        subst hcomma
        rcases st with ⟨S, inS, esc⟩
        match inS, esc with
        | false, e =>
          rw [scanStep_outside_plain rfl (by decide) (by decide) (by decide) (by decide) (by decide)]
        | true, false =>
          rw [scanStep_inside_plain (by decide) (by decide)]
        | true, true =>
          rw [scanStep_escape_consume]
          obtain ⟨d, r', rfl, hd1, hd2⟩ := wsThenCloser_head hws
          show scanFrom (scanStep ⟨S, true, true⟩ d) r' = scanFrom (scanStep ⟨S, true, false⟩ d) r'
          rw [scanStep_escape_consume, scanStep_inside_plain hd1 hd2]
      calc scanFrom st (stripTC (c :: r)) = scanFrom st (stripTC r) := by
            simp [stripTC, hc]
        _ = scanFrom st r := ih st
        _ = scanFrom (scanStep st c) r := hstep
        _ = scanFrom st (c :: r) := rfl
    · have : stripTC (c :: r) = c :: stripTC r := by simp [stripTC, hc]
      rw [this]
      show scanFrom (scanStep st c) (stripTC r) = scanFrom (scanStep st c) r
      exact ih _

theorem scanFrom_inString_stays {cs : List Char} (hq : ∀ c ∈ cs, c ≠ '"') :
    ∀ st : ScanSt, st.inString = true → (scanFrom st cs).inString = true := by
  induction cs with
  | nil => intro st h; exact h
  | cons c r ih =>
    intro st h
    have hc : c ≠ '"' := hq c (List.mem_cons_self c r)
    have hr : ∀ d ∈ r, d ≠ '"' := fun d hd => hq d (List.mem_cons_of_mem c hd)
    rcases st with ⟨S, inS, esc⟩
    cases inS with
    | false => exact absurd h (by simp)
    | true =>
      cases esc with
      | true =>
        show (scanFrom (scanStep ⟨S, true, true⟩ c) r).inString = true
        rw [scanStep_escape_consume]
        exact ih hr _ rfl
      | false =>
        show (scanFrom (scanStep ⟨S, true, false⟩ c) r).inString = true
        by_cases hb : c = '\\'
        · subst hb
          have : scanStep ⟨S, true, false⟩ '\\' = ⟨S, true, true⟩ := by simp [scanStep]
          rw [this]; exact ih hr _ rfl
        · rw [scanStep_inside_plain hc hb]
          exact ih hr _ rfl

theorem scanFrom_ws_outside {cs : List Char} (hw : ∀ c ∈ cs, isJsWs c = true) :
    ∀ st : ScanSt, st.inString = false → scanFrom st cs = st := by
  induction cs with
  | nil => intro st _; rfl
  | cons c r ih =>
    intro st h
    have hc := isJsWs_ne_special (hw c (List.mem_cons_self c r))
    show scanFrom (scanStep st c) r = st
    rw [scanStep_outside_plain h hc.1 hc.2.2.1 hc.2.2.2.1 hc.2.2.2.2.1 hc.2.2.2.2.2]
    exact ih (fun d hd => hw d (List.mem_cons_of_mem c hd)) st h

theorem scanFrom_stripEndComma {l : List Char} {st : ScanSt}
    (h : (scanFrom st l).inString = false) :
    scanFrom st (stripEndComma l) = scanFrom st l := by
  unfold stripEndComma
  split
  · rename_i r heq
    have hdecomp : l.reverse = List.takeWhile isJsWs l.reverse ++ (',' :: r) := by
      conv_lhs => rw [← List.takeWhile_append_dropWhile isJsWs l.reverse]
      rw [heq]
    have hl : l = r.reverse ++ [','] ++ (List.takeWhile isJsWs l.reverse).reverse := by
      have h2 := congrArg List.reverse hdecomp
      rw [List.reverse_reverse, List.reverse_append, List.reverse_cons] at h2
      exact h2
    have hmid : scanFrom st l =
        scanFrom (scanFrom (scanFrom st r.reverse) [',']) (List.takeWhile isJsWs l.reverse).reverse := by
      conv_lhs => rw [hl]
      rw [scanFrom_append, scanFrom_append]
    have hmin : (scanFrom st r.reverse).inString = false := by
      by_contra hin
      have hin' : (scanFrom st r.reverse).inString = true := by
        cases hmi : (scanFrom st r.reverse).inString
        · exact absurd hmi hin
        · rfl
      have hq1 : ∀ c ∈ [','], c ≠ '"' := by decide
      have hq2 : ∀ c ∈ (List.takeWhile isJsWs l.reverse).reverse, c ≠ '"' := by
        intro c hc
        have : isJsWs c = true :=
          List.mem_takeWhile_imp (by simpa using hc)
        exact (isJsWs_ne_special this).1
      have s1 := scanFrom_inString_stays hq1 _ hin'
      have s2 := scanFrom_inString_stays hq2 _ s1
      rw [hmid] at h
      rw [h] at s2
      exact absurd s2 (by decide)
    have hcj : scanFrom (scanFrom st r.reverse) [','] = scanFrom st r.reverse := by
      show scanStep (scanFrom st r.reverse) ',' = scanFrom st r.reverse
      exact scanStep_outside_plain hmin (by decide) (by decide) (by decide) (by decide) (by decide)
    have hwsall : ∀ c ∈ (List.takeWhile isJsWs l.reverse).reverse, isJsWs c = true := by
      intro c hc
      exact List.mem_takeWhile_imp (by simpa using hc)
    have hws := scanFrom_ws_outside hwsall (scanFrom st r.reverse) hmin
    rw [hmid, hcj, hws]
  · rfl

theorem scanStep_stack_sub (st : ScanSt) (c : Char) :
    ∀ b ∈ (scanStep st c).stack, (b = '{' ∨ b = '[') ∨ b ∈ st.stack := by
  intro b hb
  unfold scanStep at hb
  repeat' split at hb
  all_goals first
    | exact Or.inr hb
    | (rename_i hcond
       rcases List.mem_cons.mp hb with rfl | hmem
       · exact Or.inl (by simpa using hcond)
       · exact Or.inr hmem)
    | (rename_i heq
       exact Or.inr (by rw [heq]; exact List.mem_cons_of_mem _ hb))

theorem scanFrom_stack_wf {l : List Char} :
    ∀ st : ScanSt, (∀ b ∈ st.stack, b = '{' ∨ b = '[') →
      ∀ b ∈ (scanFrom st l).stack, b = '{' ∨ b = '[' := by
  induction l with
  | nil => intro st h; exact h
  | cons c r ih =>
    intro st h
    refine ih (scanStep st c) ?_
    intro b hb
    rcases scanStep_stack_sub st c b hb with h' | h'
    · exact h'
    · exact h b h'

theorem scanFrom_closers {S : List Char} (hwf : ∀ b ∈ S, b = '{' ∨ b = '[') (e : Bool) :
    scanFrom ⟨S, false, e⟩ (closersOf S) = ⟨[], false, e⟩ := by
  induction S with
  | nil => rfl
  | cons b S' ih =>
    have hb := hwf b (List.mem_cons_self b S')
    have hS' : ∀ x ∈ S', x = '{' ∨ x = '[' := fun x hx => hwf x (List.mem_cons_of_mem b hx)
    show scanFrom (scanStep ⟨b :: S', false, e⟩ (closeBr b)) (closersOf S') = ⟨[], false, e⟩
    rcases hb with rfl | rfl
    · have : scanStep ⟨'{' :: S', false, e⟩ (closeBr '{') = ⟨S', false, e⟩ := by
        simp [scanStep, closeBr]
      rw [this]; exact ih hS'
    · have : scanStep ⟨'[' :: S', false, e⟩ (closeBr '[') = ⟨S', false, e⟩ := by
        simp [scanStep, closeBr]
      rw [this]; exact ih hS'

theorem fixJSONStructureL_balanced (input : List Char)
    (h : ¬((jsonScan (stripTC (filterZW input))).inString = true ∧
           (jsonScan (stripTC (filterZW input))).escaped = true)) :
    ∃ e, jsonScan (fixJSONStructureL input) = ⟨[], false, e⟩ := by
  show ∃ e, jsonScan (stripTC (stripEndComma
      (if (jsonScan (stripTC (filterZW input))).inString
       then stripTC (filterZW input) ++ ['"'] else stripTC (filterZW input)))
      ++ closersOf (jsonScan (stripTC (filterZW input))).stack) = ⟨[], false, e⟩
  have hwf0 : ∀ b ∈ (jsonScan (stripTC (filterZW input))).stack, b = '{' ∨ b = '[' := by
    refine scanFrom_stack_wf ScanSt.init ?_
    intro b hb
    exact absurd hb (by simp [ScanSt.init])
  generalize ht : stripTC (filterZW input) = t at *
  rcases hsc : jsonScan t with ⟨S, inS, esc⟩
  rw [hsc] at h hwf0
  dsimp only at h hwf0 ⊢
  have hmain : ∃ e', scanFrom ScanSt.init (if inS = true then t ++ ['"'] else t) =
      ⟨S, false, e'⟩ := by
    cases inS with
    | false =>
      refine ⟨esc, ?_⟩
      rw [if_neg (by decide)]
      exact hsc
    | true =>
      have hesc : esc = false := by
        cases esc with
        | false => rfl
        | true => exact absurd ⟨rfl, rfl⟩ h
      subst hesc
      refine ⟨false, ?_⟩
      rw [if_pos rfl, scanFrom_append]
      show scanStep (jsonScan t) '"' = _
      rw [hsc]
      simp [scanStep]
  obtain ⟨e', he'⟩ := hmain
  refine ⟨e', ?_⟩
  show scanFrom ScanSt.init (stripTC (stripEndComma (if inS = true then t ++ ['"'] else t))
    ++ closersOf S) = _
  rw [scanFrom_append, scanFrom_stripTC, scanFrom_stripEndComma (by rw [he']), he',
    scanFrom_closers hwf0 e']

/-- C1 (amended core): on any input whose scan does not stop inside an
unfinished backslash escape, `fixJSONStructure` produces balanced text:
re-scanning its output ends outside every string with an empty bracket
stack. -/
theorem fixJSONStructure_balanced (s : String)
    (h : ¬((jsonScan (stripTC (filterZW s.data))).inString = true ∧
           (jsonScan (stripTC (filterZW s.data))).escaped = true)) :
    (jsonScan (fixJSONStructure s).data).stack = [] ∧
    (jsonScan (fixJSONStructure s).data).inString = false := by
  obtain ⟨e, he⟩ := fixJSONStructureL_balanced s.data h
  have hdata : (fixJSONStructure s).data = fixJSONStructureL s.data := rfl
  rw [hdata, he]
  exact ⟨rfl, rfl⟩

/-- C1 (amended core) at a concrete input: the hypothesis holds for the
truncated JSON text `{"a":"b` and the repaired output is balanced. -/
theorem fixJSONStructure_balanced_wit :
    (¬((jsonScan (stripTC (filterZW jsonStrTrunc.data))).inString = true ∧
       (jsonScan (stripTC (filterZW jsonStrTrunc.data))).escaped = true)) ∧
    ((jsonScan (fixJSONStructure jsonStrTrunc).data).stack = [] ∧
     (jsonScan (fixJSONStructure jsonStrTrunc).data).inString = false) :=
  ⟨by decide, fixJSONStructure_balanced jsonStrTrunc (by decide)⟩

/-- C1 (counterexample): the string `{"a":` is a prefix of the well-formed
JSON document `{"a":1}`, yet `fixJSON` turns it into text rejected by
`JSON.parse`. -/
theorem fixJSON_prefix_not_valid :
    List.isPrefixOf jsonPrefixCex.data jsonFullDoc.data = true ∧
    jsonValid jsonFullDoc = true ∧
    jsonValid (fixJSON jsonPrefixCex) = false := by
  refine ⟨by decide, by decide, by decide⟩

/-- C3 (counterexample): `fixJSON` is not idempotent: on the string-escape
truncated input `"ab\` a second application appends a further quote. -/
theorem fixJSON_not_idempotent :
    fixJSON (fixJSON "\"ab\\") ≠ fixJSON "\"ab\\" := by
  decide

theorem jsTrimL_idem (l : List Char) : jsTrimL (jsTrimL l) = jsTrimL l := by
  unfold jsTrimL
  set m := List.dropWhile isJsWs l with hm
  have hidem : List.dropWhile isJsWs m = m := by
    rw [hm]
    exact List.dropWhile_idempotent _ _
  have hdw : List.dropWhile isJsWs (List.rdropWhile isJsWs m) = List.rdropWhile isJsWs m := by
    obtain ⟨u, hu⟩ := List.rdropWhile_prefix isJsWs m
    cases hrd : List.rdropWhile isJsWs m with
    | nil => rfl
    | cons a as =>
      rw [hrd] at hu
      have hm2 : m = a :: (as ++ u) := by rw [← hu]; simp
      have ha : isJsWs a = false := by
        cases hx : isJsWs a with
        | false => rfl
        | true =>
          exfalso
          have hcontra := hidem
          rw [hm2, List.dropWhile_cons, if_pos hx] at hcontra
          have hle : (List.dropWhile isJsWs (as ++ u)).length ≤ (as ++ u).length :=
            (List.dropWhile_suffix isJsWs).length_le
          rw [hcontra] at hle
          simp only [List.length_cons] at hle
          omega
      simp [List.dropWhile_cons, ha]
  rw [hdw, List.rdropWhile_idempotent]

/-- C3 (amended): both text transforms are idempotent on inputs that are
already accepted by `JSON.parse` after trimming; in general `fixJSON` is
not idempotent (see the counterexample). -/
theorem fixJSON_idem_of_valid (s : String) (h : jsonValid (jsTrim s) = true) :
    fixJSON (fixJSON s) = fixJSON s := by
  have hne : jsTrim s ≠ "" := by
    intro heq
    rw [heq] at h
    exact absurd h (by decide)
  have h1 : fixJSON s = jsTrim s := by
    unfold fixJSON
    rw [if_neg hne, if_pos h]
  rw [h1]
  have htrim : jsTrim (jsTrim s) = jsTrim s := by
    show (⟨jsTrimL (jsTrim s).data⟩ : String) = jsTrim s
    show (⟨jsTrimL (jsTrimL s.data)⟩ : String) = ⟨jsTrimL s.data⟩
    rw [jsTrimL_idem]
  unfold fixJSON
  rw [htrim, if_neg hne, if_pos h]

/-- C3 (amended) at a concrete input: the already-valid document `[1,2]`
is a fixed point of `fixJSON`. -/
theorem fixJSON_idem_of_valid_wit :
    jsonValid (jsTrim "[1,2]") = true ∧ fixJSON (fixJSON "[1,2]") = fixJSON "[1,2]" :=
  ⟨by decide, fixJSON_idem_of_valid "[1,2]" (by decide)⟩

/-- C6: a string whose trimmed form `JSON.parse` already accepts is
returned trimmed and otherwise unchanged by `fixJSON`. -/
theorem fixJSON_valid_unchanged (s : String) (h : jsonValid (jsTrim s) = true) :
    fixJSON s = jsTrim s := by
  have hne : jsTrim s ≠ "" := by
    intro heq
    rw [heq] at h
    exact absurd h (by decide)
  unfold fixJSON
  rw [if_neg hne, if_pos h]

/-- C6 at a concrete input: `fixJSON` returns the trimmed form of a valid
document with surrounding whitespace. -/
theorem fixJSON_valid_unchanged_wit :
    jsonValid (jsTrim jsonValidPadded) = true ∧
    fixJSON jsonValidPadded = jsTrim jsonValidPadded :=
  ⟨by decide, fixJSON_valid_unchanged jsonValidPadded (by decide)⟩

/-! Embedding of `fixXMLorHTML` and `fixUnclosed`.  The regex walk
`/<([^>]+)>/g` of the source is modelled by a tokenizer splitting the text
into verbatim chunks and tag bodies; the function then rebuilds the text
(with each tag body trimmed, as `m[1].trim()` does) while tracking a stack
of open element names, and appends the missing closers. -/

/-- ASCII lowercasing of one character, as `String.prototype.toLowerCase`
acts on the ASCII letters (tag names in this code are ASCII). -/
def jsLowerChar (c : Char) : Char :=
  if 65 ≤ c.toNat ∧ c.toNat ≤ 90 then Char.ofNat (c.toNat + 32) else c

/-- Lowercasing of a tag name. -/
def lowerAll (l : List Char) : List Char :=
  l.map jsLowerChar

/-- Model of the `normalize` helper inside `fixXMLorHTML`: lowercase when
treating the input as HTML, identity otherwise. -/
def xmlNormalize (html : Bool) (name : List Char) : List Char :=
  if html then lowerAll name else name

/-- Model of `DEFAULT_VOID_TAGS`: HTML void elements that never receive a
closing tag. -/
def voidTags : List (List Char) :=
  [("area" : String).data, ("base" : String).data, ("br" : String).data,
   ("col" : String).data, ("embed" : String).data, ("hr" : String).data,
   ("img" : String).data, ("input" : String).data, ("link" : String).data,
   ("meta" : String).data, ("param" : String).data, ("source" : String).data,
   ("track" : String).data, ("wbr" : String).data]

/-- Model of `rawTag.split(/\s+/)[0]`: the empty name when the text starts
with whitespace (a leading empty field), otherwise the run up to the first
whitespace character. -/
def firstSplitToken (s : List Char) : List Char :=
  match s with
  | [] => []
  | c :: _ => if isJsWs c then [] else s.takeWhile (fun d => !isJsWs d)

/-- Special tag bodies passed through verbatim by `fixXMLorHTML`:
comments, DOCTYPE, CDATA sections and processing instructions. -/
def isSpecialTag (raw : List Char) : Bool :=
  ['!', '-', '-'].isPrefixOf raw ||
  ['!', 'D', 'O', 'C', 'T', 'Y', 'P', 'E'].isPrefixOf raw ||
  ['!', '[', 'C', 'D', 'A', 'T', 'A', '['].isPrefixOf raw ||
  ['?'].isPrefixOf raw

/-- One lexical item of the tag walk: verbatim text between tags, or the
body of one `<...>` group. -/
inductive XItem
  | text (s : List Char)
  | tag (raw : List Char)
deriving DecidableEq, Repr

/-- Split at the first `'>'`: `findGt l = some (a, b)` when `l = a ++ '>' :: b`
with `'>' ∉ a`. -/
def findGt : List Char → Option (List Char × List Char)
  | [] => none
  | c :: r =>
    if c = '>' then some ([], r)
    else
      match findGt r with
      | none => none
      | some (a, b) => some (c :: a, b)

/-- Prepending verbatim text to an item list, merging with a leading text
item so chunks stay maximal, as the regex walk produces them. -/
def pText (cs : List Char) (items : List XItem) : List XItem :=
  if cs = [] then items
  else
    match items with
    | .text t :: rest => .text (cs ++ t) :: rest
    | _ => .text cs :: items

/-- Fuelled tokenizer for the regex `/<([^>]+)>/g`: a `<` with a later `>`
and a nonempty body becomes a tag; `<>` and a trailing `<` with no `>`
stay verbatim text. -/
def tokAux : Nat → List Char → List XItem
  | 0, l => if l = [] then [] else [.text l]
  | _ + 1, [] => []
  | f + 1, c :: r =>
    if c = '<' then
      match findGt r with
      | none => [.text (c :: r)]
      | some (inner, rest) =>
        if inner = [] then pText ['<', '>'] (tokAux f rest)
        else .tag inner :: tokAux f rest
    else
      pText [c] (tokAux f r)

/-- The tag walk of a whole text; the fuel `l.length` always suffices
because every step consumes at least one character. -/
def tokenize (l : List Char) : List XItem :=
  tokAux l.length l

/-- Rendering one item back to text: a processed tag body is emitted as
`'<' ++ raw ++ '>'`, as `out += '<' + rawTag + '>'` does. -/
def renderItem : XItem → List Char
  | .text t => t
  | .tag raw => '<' :: (raw ++ ['>'])

/-- Rendering an item list back to text. -/
def renderItems (its : List XItem) : List Char :=
  (its.map renderItem).flatten

/-- Closing tags appended at the end of the text: one `</name>` per open
element, most recently opened first. -/
def closersX (stack : List (List Char)) : List Char :=
  (stack.map (fun n => '<' :: '/' :: (n ++ ['>']))).flatten

/-- Detection of a trailing half tag: the text contains a `<` with no `>`
after it (equivalently its last angle character is `<`), in which case
`fixXMLorHTML` appends a `>` before the walk. -/
def patchNeeded (l : List Char) : Bool :=
  match l.reverse.dropWhile (fun c => !(c = '<' || c = '>')) with
  | '<' :: _ => true
  | _ => false

/-- Stack effect of one (trimmed) tag body in the walk of `fixXMLorHTML`:
special bodies leave the stack alone, a closing tag pops only when it
matches the top (after normalization), and an opening tag that is neither
self-closing nor void pushes its normalized name. -/
def procTagStack (html : Bool) (stack : List (List Char)) (raw : List Char) :
    List (List Char) :=
  if isSpecialTag raw then stack
  else if ['/'].isPrefixOf raw then
    let name := xmlNormalize html (firstSplitToken (raw.drop 1))
    match stack with
    | top :: rest' => if xmlNormalize html top = name then rest' else stack
    | [] => stack
  else
    let selfClosing := decide (raw.getLast? = some '/')
    let name := xmlNormalize html (firstSplitToken raw)
    if !selfClosing && !(voidTags.contains name) then name :: stack else stack

/-- The tag walk of `fixXMLorHTML`: every tag body is trimmed and
re-emitted, text passes through, and the stack evolves by
`procTagStack`. -/
def procItems (html : Bool) : List (List Char) → List XItem → List XItem × List (List Char)
  | stack, [] => ([], stack)
  | stack, .text t :: rest =>
    let pr := procItems html stack rest
    (.text t :: pr.1, pr.2)
  | stack, .tag raw0 :: rest =>
    let raw := jsTrimL raw0
    let pr := procItems html (procTagStack html stack raw) rest
    (.tag raw :: pr.1, pr.2)

/-- Model of `fixXMLorHTML`: cleanup, the half-tag patch, the tag walk,
and the missing closing tags appended at the end.  `htmlOpt` models
`opts.html`: case-insensitive HTML handling unless it is exactly `false`. -/
def fixXMLorHTMLL (input : List Char) (htmlOpt : Option Bool) : List Char :=
  let treatAsHTML : Bool :=
    match htmlOpt with
    | some false => false
    | _ => true
  let src := filterZW input
  let text := if patchNeeded src then src ++ ['>'] else src
  let pr := procItems treatAsHTML [] (tokenize text)
  renderItems pr.1 ++ closersX pr.2

/-- String-level wrapper of `fixXMLorHTMLL`. -/
def fixXMLorHTML (s : String) (htmlOpt : Option Bool) : String :=
  ⟨fixXMLorHTMLL s.data htmlOpt⟩

/-- Model of `isLikelyJSON`: after `trimStart`, the text is nonempty and
either starts with `{` or `[`, or contains one of the JSON structure
signals `:{`, `":[`, `"type"`. -/
def containsSub (pat : List Char) : List Char → Bool
  | [] => pat.isPrefixOf []
  | l@(_ :: r) => pat.isPrefixOf l || containsSub pat r

/-- Model of `isLikelyJSON` (see `containsSub`). -/
def isLikelyJSONL (input : List Char) : Bool :=
  let s := jsTrimStartL input
  match s with
  | [] => false
  | c :: _ =>
    if c = '{' || c = '[' then true
    else if containsSub [':', '{'] s || containsSub ("\":[" : String).data s ||
            containsSub ("\"type\"" : String).data s then true
    else false

/-- The repair mode selector of `fixUnclosed` (`opts.mode`, default
`'auto'`). -/
inductive FixMode
  | auto
  | json
  | xml
deriving DecidableEq

/-- Model of `fixUnclosed`: JSON repair in `json` mode or in `auto` mode
when the text looks like JSON; the XML/HTML path otherwise. -/
def fixUnclosed (input : String) (mode : FixMode) (htmlOpt : Option Bool) : String :=
  if mode = FixMode.json ∨ (mode = FixMode.auto ∧ isLikelyJSONL input.data = true) then
    fixJSON input
  else
    fixXMLorHTML input htmlOpt

/-! Well-formedness checkers for the repaired markup, used to state the
claims: a strict balanced-tag recognizer over the same tag walk,
parameterized by a name normalizer (identity for exact-case XML matching,
lowercasing for the HTML-style case-insensitive matching). -/

/-- Stack effect of one (trimmed) tag body in the strict balance checker:
`none` signals a violation (a closing tag with no matching open
element). -/
def checkTagStack (norm : List Char → List Char) (stack : List (List Char))
    (raw : List Char) : Option (List (List Char)) :=
  if isSpecialTag raw then some stack
  else if ['/'].isPrefixOf raw then
    match stack with
    | top :: stack' =>
      if top = norm (firstSplitToken (raw.drop 1)) then some stack' else none
    | [] => none
  else
    let name := norm (firstSplitToken raw)
    if !(decide (raw.getLast? = some '/')) && !(voidTags.contains name) then
      some (name :: stack)
    else some stack

/-- Strict balance check of an item list: every closing tag must match the
top of the stack (after normalization) and every opened element must be
closed by the end.  Special, self-closing and void tags carry no
obligation. -/
def checkItems (norm : List Char → List Char) : List (List Char) → List XItem → Bool
  | stack, [] => decide (stack = [])
  | stack, .text _ :: rest => checkItems norm stack rest
  | stack, .tag raw0 :: rest =>
    match checkTagStack norm stack (jsTrimL raw0) with
    | some stack' => checkItems norm stack' rest
    | none => false

/-- Balance of a text under a name normalizer. -/
def xmlBalancedWith (norm : List Char → List Char) (s : String) : Bool :=
  checkItems norm [] (tokenize s.data)

/-- Exact-case (XML) balance: closing tags must match opening tags
letter for letter. -/
def xmlBalancedCS (s : String) : Bool :=
  xmlBalancedWith id s

/-- Case-insensitive (HTML-style) balance. -/
def xmlBalancedCI (s : String) : Bool :=
  xmlBalancedWith lowerAll s

/-! Input-side soundness conditions under which the repair is proved to
produce balanced markup. -/

/-- Cleanliness of one lexical item: verbatim text holds no `<`, and a tag
body is nonempty after trimming and holds no `>`. -/
def cleanItem : XItem → Bool
  | .text t => !(decide ('<' ∈ t))
  | .tag raw => !(decide (jsTrimL raw = [])) && !(decide ('>' ∈ raw))

/-- Cleanliness of a whole item list. -/
def cleanItems (its : List XItem) : Bool :=
  its.all cleanItem

/-- Check that an item list does not start with a text item. -/
def headNotText : List XItem → Bool
  | .text _ :: _ => false
  | _ => true

/-- Shape invariant of tokenizer output: text chunks are nonempty and
maximal (never adjacent). -/
def wellShaped : List XItem → Bool
  | [] => true
  | .tag _ :: rest => wellShaped rest
  | .text t :: rest => !t.isEmpty && headNotText rest && wellShaped rest

/-- One (trimmed) tag body is harmless for the walk: either it is not a
closing tag, or it is a closing tag that matches the top of the stack
(after normalization). -/
def tagCloserOk (html : Bool) (stack : List (List Char)) (raw : List Char) : Bool :=
  if isSpecialTag raw then true
  else if ['/'].isPrefixOf raw then
    match stack with
    | top :: _ =>
      xmlNormalize html top = xmlNormalize html (firstSplitToken (raw.drop 1))
    | [] => false
  else true

/-- Check that every closing tag in the input matches the then-open
element (after normalization): the condition under which the tag walk
never leaves a stray unmatched closer in place. -/
def closersMatch (html : Bool) : List (List Char) → List XItem → Bool
  | _, [] => true
  | stack, .text _ :: rest => closersMatch html stack rest
  | stack, .tag raw0 :: rest =>
    let raw := jsTrimL raw0
    tagCloserOk html stack raw && closersMatch html (procTagStack html stack raw) rest

/-- Inputs on which the XML repair is proved sound: no half-tag patch is
needed, the tokenization is clean and well-shaped, and every closing tag
already present matches its open element case-insensitively. -/
def xmlRepairable (s : String) : Bool :=
  let src := filterZW s.data
  !patchNeeded src && cleanItems (tokenize src) && wellShaped (tokenize src) &&
    closersMatch true [] (tokenize src)

/-! Character-level and trimming lemmas for the XML repair proofs. -/

theorem isJsWs_false_of_toNat {c : Char} (h1 : 33 ≤ c.toNat) (h2 : c.toNat ≤ 126) :
    isJsWs c = false := by
  rw [Bool.eq_false_iff]
  intro h
  simp only [isJsWs, Bool.or_eq_true, Bool.and_eq_true, decide_eq_true_eq] at h
  omega

theorem jsLowerChar_toNat {c : Char} (h1 : 65 ≤ c.toNat) (h2 : c.toNat ≤ 90) :
    (jsLowerChar c).toNat = c.toNat + 32 := by
  unfold jsLowerChar
  rw [if_pos ⟨h1, h2⟩]
  unfold Char.ofNat
  rw [dif_pos (Or.inl (by omega))]
  rfl

theorem jsLowerChar_idem (c : Char) : jsLowerChar (jsLowerChar c) = jsLowerChar c := by
  by_cases h : 65 ≤ c.toNat ∧ c.toNat ≤ 90
  · have ht := jsLowerChar_toNat h.1 h.2
    have : jsLowerChar (jsLowerChar c) = jsLowerChar c := by
      unfold jsLowerChar
      rw [if_pos h]
      rw [show jsLowerChar c = Char.ofNat (c.toNat + 32) from by unfold jsLowerChar; rw [if_pos h]]
        at ht
      rw [if_neg (by omega)]
    exact this
  · have hfix : jsLowerChar c = c := by unfold jsLowerChar; rw [if_neg h]
    rw [hfix, hfix]

theorem lowerAll_idem (l : List Char) : lowerAll (lowerAll l) = lowerAll l := by
  unfold lowerAll
  rw [List.map_map]
  exact List.map_congr_left (fun c _ => jsLowerChar_idem c)

theorem jsLowerChar_not_ws {c : Char} (h : isJsWs c = false) : isJsWs (jsLowerChar c) = false := by
  by_cases hr : 65 ≤ c.toNat ∧ c.toNat ≤ 90
  · have ht := jsLowerChar_toNat hr.1 hr.2
    exact isJsWs_false_of_toNat (by omega) (by omega)
  · unfold jsLowerChar
    rw [if_neg hr]
    exact h

theorem jsLowerChar_ne_gt {c : Char} (h : c ≠ '>') : jsLowerChar c ≠ '>' := by
  by_cases hr : 65 ≤ c.toNat ∧ c.toNat ≤ 90
  · have ht := jsLowerChar_toNat hr.1 hr.2
    intro heq
    have h62 : ('>' : Char).toNat = 62 := by decide
    have := congrArg Char.toNat heq
    rw [ht, h62] at this
    omega
  · unfold jsLowerChar
    rw [if_neg hr]
    exact h

theorem lowerAll_not_ws {l : List Char} (h : ∀ c ∈ l, isJsWs c = false) :
    ∀ c ∈ lowerAll l, isJsWs c = false := by
  intro c hc
  obtain ⟨d, hd, rfl⟩ := List.mem_map.mp hc
  exact jsLowerChar_not_ws (h d hd)

theorem lowerAll_gt_free {l : List Char} (h : '>' ∉ l) : '>' ∉ lowerAll l := by
  intro hc
  obtain ⟨d, hd, hdeq⟩ := List.mem_map.mp hc
  have hdne : d ≠ '>' := fun he => h (he ▸ hd)
  exact jsLowerChar_ne_gt hdne hdeq

theorem lowerAll_ne_nil {l : List Char} (h : l ≠ []) : lowerAll l ≠ [] := by
  cases l with
  | nil => exact absurd rfl h
  | cons c r => simp [lowerAll]

theorem xmlNormalize_good (html : Bool) {n : List Char}
    (h1 : n ≠ []) (h2 : '>' ∉ n) (h3 : ∀ c ∈ n, isJsWs c = false) :
    xmlNormalize html n ≠ [] ∧ '>' ∉ xmlNormalize html n ∧
    (∀ c ∈ xmlNormalize html n, isJsWs c = false) ∧
    xmlNormalize html (xmlNormalize html n) = xmlNormalize html n := by
  cases html with
  | false => exact ⟨h1, h2, h3, rfl⟩
  | true =>
    refine ⟨lowerAll_ne_nil h1, lowerAll_gt_free h2, lowerAll_not_ws h3, ?_⟩
    show lowerAll (lowerAll n) = lowerAll n
    exact lowerAll_idem n

theorem dropWhile_jsTrimL (l : List Char) :
    List.dropWhile isJsWs (jsTrimL l) = jsTrimL l := by
  unfold jsTrimL
  set m := List.dropWhile isJsWs l with hm
  have hidem : List.dropWhile isJsWs m = m := by
    rw [hm]
    exact List.dropWhile_idempotent _ _
  obtain ⟨u, hu⟩ := List.rdropWhile_prefix isJsWs m
  cases hrd : List.rdropWhile isJsWs m with
  | nil => rfl
  | cons a as =>
    rw [hrd] at hu
    have hm2 : m = a :: (as ++ u) := by rw [← hu]; simp
    have ha : isJsWs a = false := by
      cases hx : isJsWs a with
      | false => rfl
      | true =>
        exfalso
        have hcontra := hidem
        rw [hm2, List.dropWhile_cons, if_pos hx] at hcontra
        have hle : (List.dropWhile isJsWs (as ++ u)).length ≤ (as ++ u).length :=
          (List.dropWhile_suffix isJsWs).length_le
        rw [hcontra] at hle
        simp only [List.length_cons] at hle
        omega
    simp [List.dropWhile_cons, ha]

theorem jsTrimL_head_not_ws {l : List Char} {c : Char} {r : List Char}
    (h : jsTrimL l = c :: r) : isJsWs c = false := by
  have hd := dropWhile_jsTrimL l
  rw [h, List.dropWhile_cons] at hd
  cases hx : isJsWs c with
  | false => rfl
  | true =>
    exfalso
    rw [if_pos hx] at hd
    have hle : (List.dropWhile isJsWs r).length ≤ r.length :=
      (List.dropWhile_suffix isJsWs).length_le
    rw [hd] at hle
    simp only [List.length_cons] at hle
    omega

theorem jsTrimL_subset (l : List Char) : jsTrimL l ⊆ l := by
  unfold jsTrimL
  intro x hx
  have h1 : x ∈ List.dropWhile isJsWs l :=
    (List.rdropWhile_prefix isJsWs (List.dropWhile isJsWs l)).subset hx
  exact (List.dropWhile_suffix isJsWs).subset h1

theorem jsTrimL_of_ws_free {l : List Char} (h : ∀ c ∈ l, isJsWs c = false) :
    jsTrimL l = l := by
  unfold jsTrimL
  have hdw : List.dropWhile isJsWs l = l := by
    cases l with
    | nil => rfl
    | cons c r =>
      rw [List.dropWhile_cons, if_neg (by simp [h c (List.mem_cons_self c r)])]
  rw [hdw]
  rw [List.rdropWhile_eq_self_iff]
  intro hl
  simp [h _ (List.getLast_mem hl)]

theorem takeWhile_eq_self_of_all {p : Char → Bool} {l : List Char}
    (h : ∀ c ∈ l, p c = true) : l.takeWhile p = l := by
  induction l with
  | nil => rfl
  | cons c r ih =>
    rw [List.takeWhile_cons, if_pos (h c (List.mem_cons_self c r))]
    rw [ih (fun d hd => h d (List.mem_cons_of_mem c hd))]

theorem firstSplitToken_cons (d : Char) (r : List Char) :
    firstSplitToken (d :: r) =
      if isJsWs d then [] else (d :: r).takeWhile (fun e => !isJsWs e) := by
  simp only [firstSplitToken]

theorem firstSplitToken_not_ws {s : List Char} :
    ∀ c ∈ firstSplitToken s, isJsWs c = false := by
  intro c hc
  cases s with
  | nil => exact absurd hc (by simp [firstSplitToken])
  | cons d r =>
    rw [firstSplitToken_cons] at hc
    by_cases hd : isJsWs d = true
    · rw [if_pos hd] at hc
      exact absurd hc (by simp)
    · rw [if_neg hd] at hc
      have := List.mem_takeWhile_imp hc
      simpa using this

theorem firstSplitToken_subset (s : List Char) : firstSplitToken s ⊆ s := by
  cases s with
  | nil => exact fun x hx => absurd hx (by simp [firstSplitToken])
  | cons d r =>
    rw [firstSplitToken_cons]
    by_cases hd : isJsWs d = true
    · rw [if_pos hd]
      exact fun x hx => absurd hx (by simp)
    · rw [if_neg hd]
      exact (List.takeWhile_prefix _).subset

theorem firstSplitToken_ne_nil {c : Char} {r : List Char} (hc : isJsWs c = false) :
    firstSplitToken (c :: r) ≠ [] := by
  rw [firstSplitToken_cons, if_neg (by simp [hc])]
  rw [List.takeWhile_cons, if_pos (by simp [hc])]
  simp

theorem firstSplitToken_of_ws_free {s : List Char} (h1 : s ≠ [])
    (h2 : ∀ c ∈ s, isJsWs c = false) : firstSplitToken s = s := by
  cases s with
  | nil => exact absurd rfl h1
  | cons d r =>
    rw [firstSplitToken_cons, if_neg (by simp [h2 d (List.mem_cons_self d r)])]
    exact takeWhile_eq_self_of_all (fun c hc => by simp [h2 c hc])

/-! Tokenizer lemmas: the tag walk of a rebuilt text recovers the items
that were rendered, under the cleanliness conditions. -/

theorem findGt_eq_some {l a b : List Char} (h : findGt l = some (a, b)) :
    l = a ++ '>' :: b ∧ '>' ∉ a := by
  induction l generalizing a b with
  | nil => exact absurd h (by simp [findGt])
  | cons c r ih =>
    simp only [findGt] at h
    by_cases hc : c = '>'
    · rw [if_pos hc] at h
      obtain ⟨rfl, rfl⟩ : [] = a ∧ r = b := by
        have := Option.some.inj h
        exact ⟨congrArg Prod.fst this, congrArg Prod.snd this⟩
      subst hc
      exact ⟨rfl, by simp⟩
    · rw [if_neg hc] at h
      cases hf : findGt r with
      | none =>
        rw [hf] at h
        exact Option.noConfusion h
      | some p =>
        obtain ⟨a', b'⟩ := p
        rw [hf] at h
        obtain ⟨ha, hb⟩ : c :: a' = a ∧ b' = b := by
          have := Option.some.inj h
          exact ⟨congrArg Prod.fst this, congrArg Prod.snd this⟩
        obtain ⟨hr, hna⟩ := ih hf
        subst ha
        subst hb
        constructor
        · rw [hr]
          rfl
        · intro hmem
          rcases List.mem_cons.mp hmem with he | he
          · exact hc he.symm
          · exact hna he

theorem findGt_append {a : List Char} (ha : '>' ∉ a) (b : List Char) :
    findGt (a ++ '>' :: b) = some (a, b) := by
  induction a with
  | nil => simp [findGt]
  | cons c a' ih =>
    have hc : c ≠ '>' := fun h => ha (by rw [h]; exact List.mem_cons_self _ _)
    have ha' : '>' ∉ a' := fun h => ha (List.mem_cons_of_mem _ h)
    rw [List.cons_append]
    simp only [findGt, if_neg hc, ih ha']

theorem tokAux_congr : ∀ f g l, l.length ≤ f → l.length ≤ g → tokAux f l = tokAux g l := by
  intro f
  induction f with
  | zero =>
    intro g l h1 _
    have hl : l = [] := List.eq_nil_of_length_eq_zero (Nat.le_zero.mp h1)
    subst hl
    cases g <;> simp [tokAux]
  | succ f ih =>
    intro g l h1 h2
    cases l with
    | nil => cases g <;> simp [tokAux]
    | cons c r =>
      cases g with
      | zero => exact absurd h2 (by simp)
      | succ g' =>
        simp only [List.length_cons] at h1 h2
        simp only [tokAux]
        by_cases hc : c = '<'
        · rw [if_pos hc, if_pos hc]
          cases hf : findGt r with
          | none => rfl
          | some p =>
            obtain ⟨inner, rest⟩ := p
            obtain ⟨hr, -⟩ := findGt_eq_some hf
            have hrest : rest.length + 1 ≤ r.length := by
              rw [hr]
              simp only [List.length_append, List.length_cons]
              omega
            show (if inner = [] then pText ['<', '>'] (tokAux f rest)
                  else XItem.tag inner :: tokAux f rest) =
                 (if inner = [] then pText ['<', '>'] (tokAux g' rest)
                  else XItem.tag inner :: tokAux g' rest)
            by_cases hi : inner = []
            · rw [if_pos hi, if_pos hi, ih g' rest (by omega) (by omega)]
            · rw [if_neg hi, if_neg hi, ih g' rest (by omega) (by omega)]
        · rw [if_neg hc, if_neg hc]
          rw [ih g' r (by omega) (by omega)]

theorem tokenize_eq_tokAux {f : Nat} {l : List Char} (h : l.length ≤ f) :
    tokAux f l = tokenize l :=
  tokAux_congr f l.length l h (Nat.le_refl _)

theorem tok_cons_other {c : Char} (hc : c ≠ '<') (r : List Char) :
    tokenize (c :: r) = pText [c] (tokenize r) := by
  show tokAux (r.length + 1) (c :: r) = _
  simp only [tokAux, if_neg hc]
  rfl

theorem tok_tag {raw : List Char} (h1 : raw ≠ []) (h2 : '>' ∉ raw) (rest : List Char) :
    tokenize ('<' :: (raw ++ '>' :: rest)) = .tag raw :: tokenize rest := by
  show tokAux ((raw ++ '>' :: rest).length + 1) ('<' :: (raw ++ '>' :: rest)) = _
  have hle : rest.length ≤ (raw ++ '>' :: rest).length := by
    simp only [List.length_append, List.length_cons]
    omega
  simp only [tokAux, findGt_append h2 rest, if_neg h1, tokenize_eq_tokAux hle]
  simp

theorem pText_pText (c : Char) (t : List Char) (items : List XItem) :
    pText [c] (pText t items) = pText (c :: t) items := by
  by_cases ht : t = []
  · subst ht
    simp [pText]
  · cases items with
    | nil => simp [pText, ht]
    | cons i rest => cases i <;> simp [pText, ht]

theorem tok_text_prepend {t : List Char} (ht : '<' ∉ t) (rest : List Char) :
    tokenize (t ++ rest) = pText t (tokenize rest) := by
  induction t with
  | nil => simp [pText]
  | cons c t' ih =>
    have hc : c ≠ '<' := fun h => ht (by rw [h]; exact List.mem_cons_self _ _)
    have ht' : '<' ∉ t' := fun h => ht (List.mem_cons_of_mem _ h)
    rw [List.cons_append, tok_cons_other hc, ih ht', pText_pText]

theorem pText_of_headNotText {t : List Char} {items : List XItem} (h1 : t ≠ [])
    (h2 : headNotText items = true) : pText t items = .text t :: items := by
  simp only [pText, if_neg h1]
  cases items with
  | nil => rfl
  | cons i rest =>
    cases i with
    | text u => exact absurd h2 (by simp [headNotText])
    | tag raw => rfl

/-- Cleanliness of one item as a proposition, for the stability proof. -/
def ItemClean : XItem → Prop
  | .text t => '<' ∉ t
  | .tag raw => raw ≠ [] ∧ '>' ∉ raw

/-- Goodness of the element-name stack: names are nonempty, free of `>`
and whitespace, and fixed points of the normalizer. -/
def StackGoodH (html : Bool) (st : List (List Char)) : Prop :=
  ∀ n ∈ st, n ≠ [] ∧ '>' ∉ n ∧ (∀ c ∈ n, isJsWs c = false) ∧ xmlNormalize html n = n

theorem tok_closersX {st : List (List Char)}
    (h : ∀ n ∈ st, n ≠ [] ∧ '>' ∉ n) :
    tokenize (closersX st) = st.map (fun n => XItem.tag ('/' :: n)) := by
  induction st with
  | nil => rfl
  | cons n st' ih =>
    have hn := h n (List.mem_cons_self _ _)
    have hst' : ∀ m ∈ st', m ≠ [] ∧ '>' ∉ m := fun m hm => h m (List.mem_cons_of_mem _ hm)
    have heq : closersX (n :: st') = '<' :: (('/' :: n) ++ '>' :: closersX st') := by
      simp [closersX]
    rw [heq, tok_tag (by simp) (by simp [hn.2]), ih hst']
    rfl

theorem headNotText_append {its : List XItem} {Y : List XItem}
    (h1 : headNotText its = true ∨ its = []) (h2 : headNotText Y = true) :
    headNotText (its ++ Y) = true := by
  cases its with
  | nil => simpa using h2
  | cons i rest =>
    cases i with
    | text t =>
      rcases h1 with h1 | h1
      · exact absurd h1 (by simp [headNotText])
      · exact absurd h1 (by simp)
    | tag raw => simp [headNotText]

theorem tok_render {its : List XItem} (hclean : ∀ i ∈ its, ItemClean i)
    (hshape : wellShaped its = true) (tail : List Char)
    (htail : headNotText (tokenize tail) = true) :
    tokenize (renderItems its ++ tail) = its ++ tokenize tail := by
  induction its with
  | nil => simp [renderItems]
  | cons i rest ih =>
    have hr : ∀ j ∈ rest, ItemClean j := fun j hj => hclean j (List.mem_cons_of_mem _ hj)
    cases i with
    | tag raw =>
      have hc : ItemClean (.tag raw) := hclean _ (List.mem_cons_self _ _)
      have hs : wellShaped rest = true := by simpa [wellShaped] using hshape
      have heq : renderItems (.tag raw :: rest) ++ tail
          = '<' :: (raw ++ '>' :: (renderItems rest ++ tail)) := by
        simp [renderItems, renderItem]
      rw [heq, tok_tag hc.1 hc.2, ih hr hs]
      rfl
    | text t =>
      have hc : '<' ∉ t := hclean _ (List.mem_cons_self _ _)
      have hshape' : t.isEmpty = false ∧ headNotText rest = true ∧ wellShaped rest = true := by
        have := hshape
        simp only [wellShaped, Bool.and_eq_true] at this
        exact ⟨by simpa using this.1.1, this.1.2, this.2⟩
      have htne : t ≠ [] := by
        intro hcon
        rw [hcon] at hshape'
        exact absurd hshape'.1 (by simp)
      have heq : renderItems (.text t :: rest) ++ tail = t ++ (renderItems rest ++ tail) := by
        simp [renderItems, renderItem]
      rw [heq, tok_text_prepend hc, ih hr hshape'.2.2]
      rw [pText_of_headNotText htne]
      · rfl
      · refine headNotText_append ?_ htail
        cases rest with
        | nil => exact Or.inr rfl
        | cons j rest' => exact Or.inl hshape'.2.1

/-! Agreement between the tag walk and the balance checker. -/

theorem checkTagStack_agree {html : Bool} {stack : List (List Char)} {raw : List Char}
    (hok : tagCloserOk html stack raw = true) (hst : StackGoodH html stack) :
    checkTagStack (xmlNormalize html) stack raw = some (procTagStack html stack raw) := by
  unfold checkTagStack procTagStack
  unfold tagCloserOk at hok
  by_cases h1 : isSpecialTag raw = true
  · rw [if_pos h1, if_pos h1]
  · rw [if_neg h1] at hok
    rw [if_neg h1, if_neg h1]
    by_cases h2 : ['/'].isPrefixOf raw = true
    · rw [if_pos h2] at hok
      rw [if_pos h2, if_pos h2]
      cases stack with
      | nil => exact absurd hok (by simp)
      | cons top stack' =>
        have heq : xmlNormalize html top = xmlNormalize html (firstSplitToken (raw.drop 1)) := by
          simpa using hok
        have hfix : xmlNormalize html top = top := (hst top (List.mem_cons_self _ _)).2.2.2
        have heq' : top = xmlNormalize html (firstSplitToken (raw.drop 1)) := by
          rw [← hfix]
          exact heq
        dsimp only
        rw [if_pos heq', if_pos heq]
    · rw [if_neg h2] at hok
      rw [if_neg h2, if_neg h2]
      by_cases h3 : (!(decide (raw.getLast? = some '/')) &&
          !(voidTags.contains (xmlNormalize html (firstSplitToken raw)))) = true
      · rw [if_pos h3, if_pos h3]
      · rw [if_neg h3, if_neg h3]

theorem procTagStack_good {html : Bool} {stack : List (List Char)} {raw : List Char}
    (hst : StackGoodH html stack) (hgt : '>' ∉ raw)
    (hname : firstSplitToken raw ≠ []) :
    StackGoodH html (procTagStack html stack raw) := by
  unfold procTagStack
  by_cases h1 : isSpecialTag raw = true
  · rw [if_pos h1]
    exact hst
  · rw [if_neg h1]
    by_cases h2 : ['/'].isPrefixOf raw = true
    · rw [if_pos h2]
      cases stack with
      | nil => exact hst
      | cons top stack' =>
        dsimp only
        by_cases h3 : xmlNormalize html top =
            xmlNormalize html (firstSplitToken (raw.drop 1))
        · rw [if_pos h3]
          exact fun n hn => hst n (List.mem_cons_of_mem _ hn)
        · rw [if_neg h3]
          exact hst
    · rw [if_neg h2]
      dsimp only
      have hng := xmlNormalize_good html hname
        (fun hmem => hgt (firstSplitToken_subset raw hmem)) firstSplitToken_not_ws
      by_cases h3 : (!(decide (raw.getLast? = some '/')) &&
          !(voidTags.contains (xmlNormalize html (firstSplitToken raw)))) = true
      · rw [if_pos h3]
        intro n hn
        rcases List.mem_cons.mp hn with rfl | hn'
        · exact hng
        · exact hst n hn'
      · rw [if_neg h3]
        exact hst

theorem checkTagStack_closer {norm : List Char → List Char} {n : List Char}
    {st : List (List Char)} (hne : n ≠ []) (hws : ∀ c ∈ n, isJsWs c = false)
    (hfix : norm n = n) :
    checkTagStack norm (n :: st) ('/' :: n) = some st := by
  have hspec : isSpecialTag ('/' :: n) = false := by
    simp only [isSpecialTag, List.isPrefixOf, Bool.or_eq_false_iff, Bool.and_eq_false_iff]
    refine ⟨⟨⟨?_, ?_⟩, ?_⟩, ?_⟩ <;> left <;> decide
  have hclos : ['/'].isPrefixOf ('/' :: n) = true := by
    simp [List.isPrefixOf]
  unfold checkTagStack
  rw [if_neg (by simp [hspec]), if_pos hclos]
  have hdrop : (('/' : Char) :: n).drop 1 = n := rfl
  rw [hdrop, firstSplitToken_of_ws_free hne hws, hfix]
  dsimp only
  rw [if_pos rfl]

theorem checkClosers (html : Bool) :
    ∀ st : List (List Char), StackGoodH html st →
      checkItems (xmlNormalize html) st (st.map (fun n => XItem.tag ('/' :: n))) = true := by
  intro st
  induction st with
  | nil => intro _; rfl
  | cons n st' ih =>
    intro hst
    obtain ⟨hne, hgt, hws, hfix⟩ := hst n (List.mem_cons_self _ _)
    have hst' : StackGoodH html st' := fun m hm => hst m (List.mem_cons_of_mem _ hm)
    have hwsfull : ∀ c ∈ ('/' :: n), isJsWs c = false := by
      intro c hc
      rcases List.mem_cons.mp hc with rfl | hc'
      · decide
      · exact hws c hc'
    have htrim : jsTrimL ('/' :: n) = '/' :: n := jsTrimL_of_ws_free hwsfull
    show checkItems (xmlNormalize html) (n :: st')
        (XItem.tag ('/' :: n) :: st'.map (fun m => XItem.tag ('/' :: m))) = true
    simp only [checkItems, htrim, checkTagStack_closer hne hws hfix]
    exact ih hst'

theorem procCheck (html : Bool) (its : List XItem) :
    ∀ stack rest, cleanItems its = true → StackGoodH html stack →
      closersMatch html stack its = true →
      checkItems (xmlNormalize html) stack ((procItems html stack its).1 ++ rest) =
        checkItems (xmlNormalize html) (procItems html stack its).2 rest := by
  induction its with
  | nil =>
    intro stack rest _ _ _
    simp [procItems]
  | cons i rest0 ih =>
    intro stack rest hclean hst hcm
    have hcl2 : cleanItem i = true ∧ cleanItems rest0 = true := by
      simpa [cleanItems] using hclean
    cases i with
    | text t =>
      have hcm' : closersMatch html stack rest0 = true := by
        simpa [closersMatch] using hcm
      show checkItems (xmlNormalize html) stack
          ((XItem.text t :: (procItems html stack rest0).1) ++ rest) =
        checkItems (xmlNormalize html) (procItems html stack rest0).2 rest
      rw [List.cons_append]
      show checkItems (xmlNormalize html) stack
          ((procItems html stack rest0).1 ++ rest) = _
      exact ih stack rest hcl2.2 hst hcm'
    | tag raw0 =>
      have hraw : jsTrimL raw0 ≠ [] ∧ '>' ∉ raw0 := by
        simpa [cleanItem] using hcl2.1
      have hgt : '>' ∉ jsTrimL raw0 := fun h => hraw.2 (jsTrimL_subset _ h)
      have hname : firstSplitToken (jsTrimL raw0) ≠ [] := by
        cases hj : jsTrimL raw0 with
        | nil => exact absurd hj hraw.1
        | cons c r' => exact firstSplitToken_ne_nil (jsTrimL_head_not_ws hj)
      have hcm2 : tagCloserOk html stack (jsTrimL raw0) = true ∧
          closersMatch html (procTagStack html stack (jsTrimL raw0)) rest0 = true := by
        simpa [closersMatch] using hcm
      have hagree := checkTagStack_agree hcm2.1 hst
      have hgood := procTagStack_good hst hgt hname
      show checkItems (xmlNormalize html) stack
          ((XItem.tag (jsTrimL raw0) ::
            (procItems html (procTagStack html stack (jsTrimL raw0)) rest0).1) ++ rest) =
        checkItems (xmlNormalize html)
          (procItems html (procTagStack html stack (jsTrimL raw0)) rest0).2 rest
      rw [List.cons_append]
      show (match checkTagStack (xmlNormalize html) stack (jsTrimL (jsTrimL raw0)) with
            | some stack' => checkItems (xmlNormalize html) stack'
                ((procItems html (procTagStack html stack (jsTrimL raw0)) rest0).1 ++ rest)
            | none => false) = _
      rw [jsTrimL_idem, hagree]
      exact ih (procTagStack html stack (jsTrimL raw0)) rest hcl2.2 hgood hcm2.2

theorem procItems_props (html : Bool) (its : List XItem) :
    ∀ stack, cleanItems its = true → StackGoodH html stack →
      (∀ i ∈ (procItems html stack its).1, ItemClean i) ∧
      headNotText (procItems html stack its).1 = headNotText its ∧
      (wellShaped its = true → wellShaped (procItems html stack its).1 = true) ∧
      StackGoodH html (procItems html stack its).2 := by
  induction its with
  | nil =>
    intro stack _ hst
    refine ⟨?_, rfl, fun h => h, hst⟩
    intro i hi
    exact absurd hi (by simp [procItems])
  | cons i rest0 ih =>
    intro stack hclean hst
    have hcl2 : cleanItem i = true ∧ cleanItems rest0 = true := by
      simpa [cleanItems] using hclean
    cases i with
    | text t =>
      obtain ⟨hitems, hhead, hshape, hstk⟩ := ih stack hcl2.2 hst
      have hlt : '<' ∉ t := by simpa [cleanItem] using hcl2.1
      refine ⟨?_, rfl, ?_, hstk⟩
      · intro j hj
        have hj' : j = XItem.text t ∨ j ∈ (procItems html stack rest0).1 := by
          simpa [procItems] using hj
        rcases hj' with rfl | hj'
        · exact hlt
        · exact hitems j hj'
      · intro hws
        have hws' : t.isEmpty = false ∧ headNotText rest0 = true ∧ wellShaped rest0 = true := by
          have := hws
          simp only [wellShaped, Bool.and_eq_true] at this
          exact ⟨by simpa using this.1.1, this.1.2, this.2⟩
        show wellShaped (XItem.text t :: (procItems html stack rest0).1) = true
        simp only [wellShaped, Bool.and_eq_true]
        exact ⟨⟨by simp [hws'.1], by rw [hhead]; exact hws'.2.1⟩, hshape hws'.2.2⟩
    | tag raw0 =>
      have hraw : jsTrimL raw0 ≠ [] ∧ '>' ∉ raw0 := by
        simpa [cleanItem] using hcl2.1
      have hgt : '>' ∉ jsTrimL raw0 := fun h => hraw.2 (jsTrimL_subset _ h)
      have hname : firstSplitToken (jsTrimL raw0) ≠ [] := by
        cases hj : jsTrimL raw0 with
        | nil => exact absurd hj hraw.1
        | cons c r' => exact firstSplitToken_ne_nil (jsTrimL_head_not_ws hj)
      have hgood := procTagStack_good hst hgt hname
      obtain ⟨hitems, hhead, hshape, hstk⟩ :=
        ih (procTagStack html stack (jsTrimL raw0)) hcl2.2 hgood
      refine ⟨?_, rfl, ?_, hstk⟩
      · intro j hj
        have hj' : j = XItem.tag (jsTrimL raw0) ∨
            j ∈ (procItems html (procTagStack html stack (jsTrimL raw0)) rest0).1 := by
          simpa [procItems] using hj
        rcases hj' with rfl | hj'
        · exact ⟨hraw.1, hgt⟩
        · exact hitems j hj'
      · intro hws
        have hws' : wellShaped rest0 = true := by simpa [wellShaped] using hws
        show wellShaped (XItem.tag (jsTrimL raw0) ::
          (procItems html (procTagStack html stack (jsTrimL raw0)) rest0).1) = true
        simp only [wellShaped]
        exact hshape hws'

/-- C2 (amended): in `xml` mode `fixUnclosed` appends, at the end of the
text, one closing tag per still-open element in reverse order of opening,
with lowercased names — matching is HTML-style case-insensitive because
mode `xml` alone leaves `opts.html` unset.  On inputs whose tags are
complete and whose existing closers match case-insensitively, the output
is balanced under case-insensitive matching. -/
theorem fixUnclosed_xml_balanced (s : String) (h : xmlRepairable s = true) :
    xmlBalancedCI (fixUnclosed s FixMode.xml none) = true := by
  have hcomp := h
  simp only [xmlRepairable, Bool.and_eq_true] at hcomp
  obtain ⟨⟨⟨hp, hcl⟩, hws⟩, hcm⟩ := hcomp
  have hpatch : patchNeeded (filterZW s.data) = false := by simpa using hp
  have hmode : fixUnclosed s FixMode.xml none = fixXMLorHTML s none := by
    unfold fixUnclosed
    rw [if_neg]
    rintro (hc | ⟨hc, -⟩) <;> exact FixMode.noConfusion hc
  rw [hmode]
  show checkItems lowerAll [] (tokenize (fixXMLorHTMLL s.data none)) = true
  have hxml : fixXMLorHTMLL s.data none =
      renderItems (procItems true [] (tokenize (filterZW s.data))).1 ++
        closersX (procItems true [] (tokenize (filterZW s.data))).2 := by
    unfold fixXMLorHTMLL
    dsimp only
    rw [if_neg (by simp [hpatch])]
  rw [hxml]
  have hstnil : StackGoodH true [] := fun n hn => absurd hn (by simp)
  obtain ⟨hitems, hhead, hshape, hstgood⟩ :=
    procItems_props true (tokenize (filterZW s.data)) [] hcl hstnil
  have hstacks : ∀ n ∈ (procItems true [] (tokenize (filterZW s.data))).2,
      n ≠ [] ∧ '>' ∉ n :=
    fun n hn => ⟨(hstgood n hn).1, (hstgood n hn).2.1⟩
  have htokc := tok_closersX hstacks
  have htail : headNotText
      (tokenize (closersX (procItems true [] (tokenize (filterZW s.data))).2)) = true := by
    rw [htokc]
    cases (procItems true [] (tokenize (filterZW s.data))).2 with
    | nil => rfl
    | cons m st' => rfl
  rw [tok_render hitems (hshape hws) _ htail, htokc]
  have hnorm : lowerAll = xmlNormalize true := by
    funext n
    rfl
  rw [hnorm]
  rw [procCheck true (tokenize (filterZW s.data)) [] _ hcl hstnil hcm]
  exact checkClosers true _ hstgood

/-- C2 (amended) at a concrete input: the truncated document
`<mxGraphModel><root>` is repairable and the repaired output is balanced
case-insensitively. -/
theorem fixUnclosed_xml_balanced_wit :
    xmlRepairable "<mxGraphModel><root>" = true ∧
    xmlBalancedCI (fixUnclosed "<mxGraphModel><root>" FixMode.xml none) = true :=
  ⟨by decide, fixUnclosed_xml_balanced "<mxGraphModel><root>" (by decide)⟩

/-- C2 (counterexample): on the prefix `<mxGraphModel>` of a well-formed
XML document, `fixUnclosed` in `xml` mode appends the lowercased closer
`</mxgraphmodel>`: the closing tag does not match the opening tag's
letter case, so the output is not well-formed XML under exact-case
matching. -/
theorem fixUnclosed_xml_case_cex :
    fixUnclosed "<mxGraphModel>" FixMode.xml none = "<mxGraphModel></mxgraphmodel>" ∧
    List.isPrefixOf ("<mxGraphModel>" : String).data
      ("<mxGraphModel></mxGraphModel>" : String).data = true ∧
    xmlBalancedCS "<mxGraphModel></mxGraphModel>" = true ∧
    xmlBalancedCS (fixUnclosed "<mxGraphModel>" FixMode.xml none) = false := by
  refine ⟨by decide, by decide, by decide, by decide⟩

/-- C5: `fixJSON` is total and signals no failure: when neither the
trimmed input nor its structural repair is accepted by `JSON.parse`, it
returns the best-effort repaired text with trailing commas stripped; and
`fixUnclosed` in `json` mode returns exactly that. -/
theorem fixJSON_fallback (s : String)
    (h1 : jsonValid (jsTrim s) = false)
    (h2 : jsonValid (fixJSONStructure (jsTrim s)) = false) :
    fixJSON s = stripTrailingCommas (fixJSONStructure (jsTrim s)) ∧
    fixUnclosed s FixMode.json none = fixJSON s := by
  constructor
  · unfold fixJSON
    by_cases hz : jsTrim s = ""
    · rw [if_pos hz, hz]
      rfl
    · rw [if_neg hz, if_neg (by simp [h1]), if_neg (by simp [h2])]
  · unfold fixUnclosed
    rw [if_pos (Or.inl rfl)]

/-- C5 at a concrete input: the truncated object `{"a":` fails to parse
before and after repair, and `fixJSON` still returns the best-effort
text. -/
theorem fixJSON_fallback_wit :
    jsonValid (jsTrim jsonPrefixCex) = false ∧
    jsonValid (fixJSONStructure (jsTrim jsonPrefixCex)) = false ∧
    (fixJSON jsonPrefixCex = stripTrailingCommas (fixJSONStructure (jsTrim jsonPrefixCex)) ∧
     fixUnclosed jsonPrefixCex FixMode.json none = fixJSON jsonPrefixCex) :=
  ⟨by decide, by decide, fixJSON_fallback jsonPrefixCex (by decide) (by decide)⟩

/-! Embedding of `postProcessDrawioCode` (app/page.js): code-fence
extraction, minimal HTML-entity decoding, slicing to the first plausible
XML block, then `fixUnclosed` in `xml` mode. -/

/-- The backtick character, by code point. -/
def backtickChar : Char := Char.ofNat 96

/-- Test for three backticks at the head of the text. -/
def startsTicks3 : List Char → Bool
  | a :: b :: c :: _ => a = backtickChar && b = backtickChar && c = backtickChar
  | _ => false

/-- Split at the first triple-backtick: `some (before, after)` with
`after` the text past the three backticks. -/
def findTicks3 : List Char → Option (List Char × List Char)
  | [] => none
  | c :: r =>
    if startsTicks3 (c :: r) then some ([], (c :: r).drop 3)
    else
      match findTicks3 r with
      | none => none
      | some (a, b) => some (c :: a, b)

/-- Body of a fence already opened: greedy `\s*`, then the lazy body up
to the next triple-backtick (`none` when the fence never closes). -/
def fenceTail (rest : List Char) : Option (List Char) :=
  match findTicks3 rest with
  | none => none
  | some (before, _) => some (List.dropWhile isJsWs before)

/-- Model of the first match of ``/```\s*([\s\S]*?)```/``: the regex scan
tries every position for an opening fence with a closing fence after
it. -/
def fencedAnyBody : List Char → Option (List Char)
  | [] => none
  | c :: r =>
    if startsTicks3 (c :: r) then
      match fenceTail ((c :: r).drop 3) with
      | some body => some body
      | none => fencedAnyBody r
    else fencedAnyBody r

/-- After an opening fence: optional whitespace, the letters `xml`
case-insensitively, then the fence body. -/
def matchXmlAfterTicks (rest : List Char) : Option (List Char) :=
  match List.dropWhile isJsWs rest with
  | x :: m :: l :: r2 =>
    if jsLowerChar x = 'x' && jsLowerChar m = 'm' && jsLowerChar l = 'l' then
      fenceTail r2
    else none
  | _ => none

/-- Model of the first match of ``/```\s*xml\s*([\s\S]*?)```/i``. -/
def fencedXmlBody : List Char → Option (List Char)
  | [] => none
  | c :: r =>
    if startsTicks3 (c :: r) then
      match matchXmlAfterTicks ((c :: r).drop 3) with
      | some body => some body
      | none => fencedXmlBody r
    else fencedXmlBody r

/-- One global literal replacement pass (`String.prototype.replace` with
a `g`-flagged literal pattern): left to right, non-overlapping. -/
def replaceAllAux (pat rep : List Char) : Nat → List Char → List Char
  | 0, l => l
  | _ + 1, [] => []
  | f + 1, c :: r =>
    if pat.isPrefixOf (c :: r) then rep ++ replaceAllAux pat rep f ((c :: r).drop pat.length)
    else c :: replaceAllAux pat rep f r

/-- Global literal replacement with sufficient fuel. -/
def replaceAllL (pat rep l : List Char) : List Char :=
  replaceAllAux pat rep l.length l

/-- The five entity replacements of `postProcessDrawioCode`, in source
order (`&lt;`, `&gt;`, `&amp;`, `&quot;`, `&#39;`). -/
def decode5 (l : List Char) : List Char :=
  replaceAllL ("&#39;" : String).data ("'" : String).data
    (replaceAllL ("&quot;" : String).data ("\"" : String).data
      (replaceAllL ("&amp;" : String).data ("&" : String).data
        (replaceAllL ("&gt;" : String).data (">" : String).data
          (replaceAllL ("&lt;" : String).data ("<" : String).data l))))

/-- Character class `[a-z!?]` under the `i` flag. -/
def isTagStartChar (c : Char) : Bool :=
  ('a' ≤ c && c ≤ 'z') || ('A' ≤ c && c ≤ 'Z') || c = '!' || c = '?'

/-- Test of `/[<][a-z!?]/i`: a raw `<` directly followed by a letter,
`!` or `?`. -/
def hasRawLt : List Char → Bool
  | [] => false
  | '<' :: c :: r => if isTagStartChar c then true else hasRawLt (c :: r)
  | _ :: r => hasRawLt r

/-- Case-insensitive literal prefix; returns the remainder. -/
def ciPrefix : List Char → List Char → Option (List Char)
  | [], l => some l
  | _ :: _, [] => none
  | p :: ps, c :: cs => if jsLowerChar p = jsLowerChar c then ciPrefix ps cs else none

/-- Test of `/&lt;\s*[a-z!?]/i`: an escaped tag start. The `i` flag makes
the entity letters case-insensitive, so `&LT;`/`&Lt;` trigger it too. -/
def hasEscLt : List Char → Bool
  | [] => false
  | c :: r =>
    (match ciPrefix ("&lt;" : String).data (c :: r) with
     | some rest =>
       match List.dropWhile isJsWs rest with
       | d :: _ => isTagStartChar d
       | [] => false
     | none => false) || hasEscLt r

/-- One alternative of `/<(mxfile|mxGraphModel|diagram)([\s>])/i` after
the `<`: the name case-insensitively, then whitespace or `>`. -/
def ciPrefixThenDelim (pat l : List Char) : Bool :=
  match ciPrefix pat l with
  | some (d :: _) => isJsWs d || d = '>'
  | _ => false

/-- The three tag-name alternatives after a `<`. -/
def matchMxName (l : List Char) : Bool :=
  ciPrefixThenDelim ("mxfile" : String).data l ||
  ciPrefixThenDelim ("mxGraphModel" : String).data l ||
  ciPrefixThenDelim ("diagram" : String).data l

/-- Suffix of the text from the first `<mxfile`/`<mxGraphModel`/
`<diagram` tag start (the result of `search`). -/
def sliceFromXmlStart : List Char → Option (List Char)
  | [] => none
  | c :: r =>
    if c = '<' && matchMxName r then some (c :: r)
    else sliceFromXmlStart r

/-- Keep the text through its last `>`. -/
def keepUpToLastGt (l : List Char) : List Char :=
  (List.dropWhile (fun c => !(c = '>')) l.reverse).reverse

/-- Step 3 of `postProcessDrawioCode`: slice from the first plausible XML
tag through the last `>`, only when that `>` lies after the tag start. -/
def sliceXml (p : List Char) : List Char :=
  match sliceFromXmlStart p with
  | some suf => if '>' ∈ suf.drop 1 then keepUpToLastGt suf else p
  | none => p

/-- Fallback of the fence step: the first fenced block of any kind, used
only when its body is nonempty (the JS truthiness check on `m[1]`). -/
def fencedAnyFallback (p : List Char) : List Char :=
  match fencedAnyBody p with
  | some b => if b = [] then p else b
  | none => p

/-- Model of `postProcessDrawioCode`: cleanup, fence extraction (with the
JS truthiness check on the captured body), trim, conditional entity
decoding, XML-block slicing, and `fixUnclosed` in `xml` mode. -/
def postProcessDrawioCode (code : String) : String :=
  if code = "" then code
  else
    let p := filterZW code.data
    let p :=
      match fencedXmlBody p with
      | some b => if b = [] then fencedAnyFallback p else b
      | none => fencedAnyFallback p
    let p := jsTrimL p
    let p := if !hasRawLt p && hasEscLt p then decode5 p else p
    let p := sliceXml p
    fixUnclosed ⟨p⟩ FixMode.xml none

/-- Modelled from the claim's words (C4): the same pipeline but taking
the body of the first ```` ```xml ```` fence whenever one exists — even
when that body is empty — and otherwise the body of the first fence of
any kind. -/
def specFenceClaim (p : List Char) : List Char :=
  match fencedXmlBody p with
  | some b => b
  | none =>
    match fencedAnyBody p with
    | some b => b
    | none => p

/-- The pipeline as the claim states it (see `specFenceClaim`). -/
def specPostProcessClaim (code : String) : String :=
  if code = "" then code
  else
    let p := filterZW code.data
    let p := specFenceClaim p
    let p := jsTrimL p
    let p := if !hasRawLt p && hasEscLt p then decode5 p else p
    let p := sliceXml p
    fixUnclosed ⟨p⟩ FixMode.xml none

/-- The fence step as amended: a fenced body is used only when it is
nonempty, first the ```` ```xml ```` fence, then any fence. -/
def specFenceAmended (p : List Char) : List Char :=
  match fencedXmlBody p with
  | some b =>
    if b = [] then
      match fencedAnyBody p with
      | some b' => if b' = [] then p else b'
      | none => p
    else b
  | none =>
    match fencedAnyBody p with
    | some b' => if b' = [] then p else b'
    | none => p

/-- The amended pipeline (C4): strip BOM/zero-width characters; take the
body of the first ```` ```xml ```` fence when nonempty, else the first
nonempty fence of any kind; trim; decode the five entities when the text
has no raw tag start but an escaped one; keep from the first
`<mxfile`/`<mxGraphModel`/`<diagram` tag through the last later `>`;
finally apply `fixUnclosed` in `xml` mode. -/
def specPostProcessAmended (code : String) : String :=
  if code = "" then code
  else
    let p := filterZW code.data
    let p := specFenceAmended p
    let p := jsTrimL p
    let p := if !hasRawLt p && hasEscLt p then decode5 p else p
    let p := sliceXml p
    fixUnclosed ⟨p⟩ FixMode.xml none

/-- C4 (counterexample): on the input `` ```xml``` `` — an ```` ```xml ````
fence with an empty body — the code ignores the empty capture (it is
falsy) and extracts `xml` from the any-fence fallback, while the
pipeline as claimed would take the empty body. -/
theorem postProcess_fence_cex :
    postProcessDrawioCode "```xml```" = "xml" ∧
    specPostProcessClaim "```xml```" = "" ∧
    postProcessDrawioCode "```xml```" ≠ specPostProcessClaim "```xml```" := by
  refine ⟨by decide, by decide, by decide⟩

/-- C4 (amended): `postProcessDrawioCode` coincides on every input with
the amended pipeline, whose fence step uses a fenced body only when it is
nonempty. -/
theorem postProcess_matches_amended (s : String) :
    postProcessDrawioCode s = specPostProcessAmended s := by
  unfold postProcessDrawioCode specPostProcessAmended specFenceAmended fencedAnyFallback
  rfl

/-! Embedding of the Draw.io iframe bridge (components/DrawioCanvas.jsx):
`handleMessage`, `sendLoadMessage`, `exportDiagram`, `mergeDiagram`.

The component state is the triple `isReady`/`isLoading`/`error` plus the
ambient conditions the handlers read: whether the iframe element exists
(`iframeRef.current`), the `xml` prop, and whether the `onSave`/`onError`
callbacks were passed.  Observable behavior is the new state plus a list
of effects: messages posted to the iframe and callback invocations.
`setState` inside an event does not change what the already-created
closures read, so the `sendLoadMessage` call inside the `init` branch
checks the readiness value from before the event. -/

/-- Component state and props of `DrawioCanvas` as read by the
handlers. -/
structure BridgeState where
  isReady : Bool
  isLoading : Bool
  error : Option String
  hasIframe : Bool
  xmlProp : String
  hasOnSave : Bool
  hasOnError : Bool
deriving DecidableEq, Repr

/-- A message posted to the editor iframe (the serialized JSON objects of
the three senders). -/
inductive PostMsg
  | load (xml : String) (autosave : Nat)
  | exportMsg (format : String)
  | merge (xml : String)
deriving DecidableEq, Repr

/-- Observable effects of one handler run. -/
inductive Effect
  | post (m : PostMsg)
  | save (xml : String)
  | errorCb (msg : String)
deriving DecidableEq, Repr

/-- Fields of a JSON protocol message from the iframe. -/
structure ObjData where
  event : String
  xml : Option String
  exitFlag : Bool
  modified : Bool
  message : Option String
  format : Option String
deriving DecidableEq, Repr

/-- The `event.data` payload: a legacy string, a JSON protocol object, or
anything else. -/
inductive MsgData
  | str (s : String)
  | obj (d : ObjData)
  | other
deriving DecidableEq, Repr

/-- An incoming `message` event. -/
structure MsgEvent where
  origin : String
  data : MsgData
deriving DecidableEq, Repr

/-- The only trusted origin. -/
def drawioOrigin : String := "https://embed.diagrams.net"

/-- The default empty diagram document substituted for a falsy
`xmlData`. -/
def defaultDiagramXml : String :=
  "<mxGraphModel><root><mxCell id=\"0\"/><mxCell id=\"1\" parent=\"0\"/></root></mxGraphModel>"

/-- JavaScript truthiness of an optional string (absent, `null`,
`undefined` and `''` are falsy). -/
def truthyS : Option String → Bool
  | some s => !(s = "")
  | none => false

/-- Model of `sendLoadMessage`: a no-op without the iframe or before
readiness; otherwise posts the `load` action with `autosave: 1`,
substituting the default empty diagram for a falsy `xmlData`. -/
def sendLoadMessage (st : BridgeState) (xmlData : Option String) : Option PostMsg :=
  if !st.hasIframe || !st.isReady then none
  else
    some (.load
      (match xmlData with
        | some x => if x = "" then defaultDiagramXml else x
        | none => defaultDiagramXml)
      1)

/-- Model of `exportDiagram`. -/
def exportDiagram (st : BridgeState) (format : String) : Option PostMsg :=
  if !st.hasIframe || !st.isReady then none
  else some (.exportMsg format)

/-- Model of `mergeDiagram` (no default is substituted here). -/
def mergeDiagram (st : BridgeState) (xmlData : String) : Option PostMsg :=
  if !st.hasIframe || !st.isReady then none
  else some (.merge xmlData)

/-- Model of `handleMessage`: the origin gate, the legacy `ready` string,
and the JSON protocol events (`init`, `load`, `save`, `exit`,
`autosave`, `export`, `error`, unknown). -/
def handleMessage (st : BridgeState) (e : MsgEvent) : BridgeState × List Effect :=
  if e.origin ≠ drawioOrigin then (st, [])
  else
    match e.data with
    | .str s =>
      if s = "ready" then ({ st with isReady := true, isLoading := false }, [])
      else (st, [])
    | .obj d =>
      if d.event = "init" then
        ({ st with isReady := true, isLoading := false },
         if st.hasIframe && truthyS (some st.xmlProp) then
           match sendLoadMessage st (some st.xmlProp) with
           | some m => [Effect.post m]
           | none => []
         else [])
      else if d.event = "load" then (st, [])
      else if d.event = "save" then
        (st,
         if st.hasOnSave && truthyS d.xml then
           [Effect.save (match d.xml with | some x => x | none => "")]
         else [])
      else if d.event = "exit" then (st, [])
      else if d.event = "autosave" then
        (st,
         if st.hasOnSave && truthyS d.xml then
           [Effect.save (match d.xml with | some x => x | none => "")]
         else [])
      else if d.event = "export" then (st, [])
      else if d.event = "error" then
        let errorMsg :=
          match d.message with
          | some m => if m = "" then "Unknown error occurred" else m
          | none => "Unknown error occurred"
        ({ st with error := some errorMsg },
         if st.hasOnError then [Effect.errorCb errorMsg] else [])
      else (st, [])
    | .other => (st, [])

/-- A run of the bridge over a sequence of incoming events, accumulating
the emitted effects. -/
def runBridge (st : BridgeState) : List MsgEvent → BridgeState × List Effect
  | [] => (st, [])
  | e :: rest =>
    let r1 := handleMessage st e
    let r2 := runBridge r1.1 rest
    (r2.1, r1.2 ++ r2.2)

/-! Claims about the bridge. -/

theorem handleMessage_foreign (st : BridgeState) (e : MsgEvent)
    (h : e.origin ≠ drawioOrigin) : handleMessage st e = (st, []) := by
  unfold handleMessage
  rw [if_pos h]

/-- C8: a message event from any origin other than
`https://embed.diagrams.net` has no effect: the state is unchanged and no
callback or post is emitted, so a run with such an event inserted is
indistinguishable from the run without it. -/
theorem runBridge_foreign_insensitive (st : BridgeState) (pre post : List MsgEvent)
    (e : MsgEvent) (h : e.origin ≠ drawioOrigin) :
    runBridge st (pre ++ e :: post) = runBridge st (pre ++ post) := by
  induction pre generalizing st with
  | nil =>
    simp only [List.nil_append, runBridge, handleMessage_foreign st e h]
  | cons a pre' ih =>
    simp only [List.cons_append, runBridge, List.append_eq]
    rw [ih]

/-- C8 at a concrete input: inserting a forged `save` event from a
foreign origin changes neither the final state nor the effects. -/
theorem runBridge_foreign_insensitive_wit :
    (("https://evil.example" : String) ≠ drawioOrigin) ∧
    runBridge ⟨false, true, none, true, "x", true, true⟩
        ([⟨drawioOrigin, .obj ⟨"init", none, false, false, none, none⟩⟩] ++
          ⟨"https://evil.example", .obj ⟨"save", some "<a>", false, false, none, none⟩⟩ ::
          [⟨drawioOrigin, .obj ⟨"save", some "<b/>", false, false, none, none⟩⟩]) =
      runBridge ⟨false, true, none, true, "x", true, true⟩
        ([⟨drawioOrigin, .obj ⟨"init", none, false, false, none, none⟩⟩] ++
          [⟨drawioOrigin, .obj ⟨"save", some "<b/>", false, false, none, none⟩⟩]) :=
  ⟨by decide,
   runBridge_foreign_insensitive ⟨false, true, none, true, "x", true, true⟩
     [⟨drawioOrigin, .obj ⟨"init", none, false, false, none, none⟩⟩]
     [⟨drawioOrigin, .obj ⟨"save", some "<b/>", false, false, none, none⟩⟩]
     ⟨"https://evil.example", .obj ⟨"save", some "<a>", false, false, none, none⟩⟩
     (by decide)⟩

/-- C9: while `isReady` is false, every call to `sendLoadMessage`,
`exportDiagram` and `mergeDiagram` is a no-op: nothing is posted to the
iframe. -/
theorem bridge_not_ready_noop (st : BridgeState) (x : Option String) (f y : String)
    (h : st.isReady = false) :
    sendLoadMessage st x = none ∧ exportDiagram st f = none ∧ mergeDiagram st y = none := by
  refine ⟨?_, ?_, ?_⟩ <;> simp [sendLoadMessage, exportDiagram, mergeDiagram, h]

/-- C9 at a concrete input: with readiness still false nothing is
posted. -/
theorem bridge_not_ready_noop_wit :
    ((⟨false, true, none, true, "x", true, true⟩ : BridgeState).isReady = false) ∧
    (sendLoadMessage ⟨false, true, none, true, "x", true, true⟩ (some "<a/>") = none ∧
     exportDiagram ⟨false, true, none, true, "x", true, true⟩ "png" = none ∧
     mergeDiagram ⟨false, true, none, true, "x", true, true⟩ "<b/>" = none) :=
  ⟨by decide, bridge_not_ready_noop ⟨false, true, none, true, "x", true, true⟩
    (some "<a/>") "png" "<b/>" (by decide)⟩

/-- C10: after readiness, `sendLoadMessage` with an absent or empty
`xmlData` posts the `load` action carrying the default empty diagram
document, with `autosave: 1`. -/
theorem sendLoadMessage_default (st : BridgeState)
    (h1 : st.isReady = true) (h2 : st.hasIframe = true) :
    sendLoadMessage st none = some (.load defaultDiagramXml 1) ∧
    sendLoadMessage st (some "") = some (.load defaultDiagramXml 1) := by
  constructor <;> simp [sendLoadMessage, h1, h2]

/-- C10 at a concrete input. -/
theorem sendLoadMessage_default_wit :
    ((⟨true, false, none, true, "x", true, true⟩ : BridgeState).isReady = true) ∧
    (sendLoadMessage ⟨true, false, none, true, "x", true, true⟩ none =
        some (.load defaultDiagramXml 1) ∧
     sendLoadMessage ⟨true, false, none, true, "x", true, true⟩ (some "") =
        some (.load defaultDiagramXml 1)) :=
  ⟨by decide, sendLoadMessage_default ⟨true, false, none, true, "x", true, true⟩
    (by decide) (by decide)⟩

/-- C7 (counterexample): whether `sendLoadMessage` posts is not a
function of its argument alone: with the same argument, the call posts
nothing in the initial state but posts the `load` message in the state
produced by an earlier `init` event received from the iframe. -/
theorem bridge_not_stateless_cex :
    sendLoadMessage ⟨false, true, none, true, "", true, true⟩ (some "<a/>") = none ∧
    sendLoadMessage
        (handleMessage ⟨false, true, none, true, "", true, true⟩
          ⟨drawioOrigin, .obj ⟨"init", none, false, false, none, none⟩⟩).1
        (some "<a/>") = some (.load "<a/>" 1) :=
  ⟨by decide, by decide⟩

/-- C7 (amended): the content of a posted message is a function of the
call's arguments alone — any two states that both pass the posting guard
(iframe present and readiness latched) produce identical messages; only
the posting decision depends on that guard, which is state set by earlier
`init`/`ready` events. -/
theorem bridge_content_state_free (s1 s2 : BridgeState) (x : Option String) (f y : String)
    (h1 : s1.isReady = true) (h2 : s1.hasIframe = true)
    (h3 : s2.isReady = true) (h4 : s2.hasIframe = true) :
    sendLoadMessage s1 x = sendLoadMessage s2 x ∧
    exportDiagram s1 f = exportDiagram s2 f ∧
    mergeDiagram s1 y = mergeDiagram s2 y := by
  refine ⟨?_, ?_, ?_⟩ <;>
    simp [sendLoadMessage, exportDiagram, mergeDiagram, h1, h2, h3, h4]

/-- C7 (amended) at concrete inputs: two ready states with different
histories post identical messages. -/
theorem bridge_content_state_free_wit :
    ((⟨true, false, none, true, "a", true, true⟩ : BridgeState).isReady = true) ∧
    (sendLoadMessage ⟨true, false, none, true, "a", true, true⟩ (some "<c/>") =
       sendLoadMessage ⟨true, true, some "boom", true, "b", false, false⟩ (some "<c/>") ∧
     exportDiagram ⟨true, false, none, true, "a", true, true⟩ "png" =
       exportDiagram ⟨true, true, some "boom", true, "b", false, false⟩ "png" ∧
     mergeDiagram ⟨true, false, none, true, "a", true, true⟩ "<d/>" =
       mergeDiagram ⟨true, true, some "boom", true, "b", false, false⟩ "<d/>") :=
  ⟨by decide, bridge_content_state_free
    ⟨true, false, none, true, "a", true, true⟩
    ⟨true, true, some "boom", true, "b", false, false⟩
    (some "<c/>") "png" "<d/>" (by decide) (by decide) (by decide) (by decide)⟩

end SmartDraw
